import Mathlib

/-!
Verification of the EPUB-to-ZIP converter's name-ordering / output-naming
algorithm (NameProcessor), archive building (ZipGenerator), EPUB image
extraction (EpubParser) and the batch conversion pipeline (EpubToZipApp),
shallowly embedded from `src/js`.

JavaScript strings are modelled as lists of UTF-16 code units (`JSStr`),
so that index arithmetic (`charCodeAt`, `length`, slicing) matches the
source exactly, including for supplementary-plane characters that occupy
two code units.  Number token values are modelled as exact naturals
(exact for all values below 2^53, where JS `parseInt` is exact).
-/

namespace EpubZip

/-- A JavaScript string: its list of UTF-16 code units. -/
abbrev JSStr := List Nat

/-- UTF-16 code units of one Unicode code point (surrogate pair above U+FFFF). -/
def utf16Units (c : Char) : List Nat :=
  if c.toNat < 0x10000 then [c.toNat]
  else [0xD800 + (c.toNat - 0x10000) / 0x400, 0xDC00 + (c.toNat - 0x10000) % 0x400]

/-- Convert a Lean string literal into the JS string model. -/
def jstr (s : String) : JSStr := s.data.flatMap utf16Units

/-- Is this code unit a decimal digit (matched by the `/(\d+)/g` pattern)? -/
def digitUnit (u : Nat) : Bool := 48 ≤ u && u ≤ 57

/-- Base-10 value of a digit run, as computed by `parseInt(match[1], 10)`. -/
def digitsToVal (run : List Nat) : Nat := run.foldl (fun a u => a * 10 + (u - 48)) 0

/-- Utils.removeFileExtension: `filename.replace(/\.[^/.]+$/, "")` — drop a final
dot followed by one or more characters none of which is a dot or slash. -/
def removeFileExtension (s : JSStr) : JSStr :=
  let r := s.reverse
  let suf := r.takeWhile fun u => u != 46 && u != 47
  match r.drop suf.length with
  | 46 :: rest => if suf.isEmpty then s else rest.reverse
  | _ => s

/-- Utils.getFileExtension: `filename.slice((filename.lastIndexOf(".") - 1 >>> 0) + 2)`.
For a dot at position `i ≥ 1` this is `slice(i + 1)`; when there is no dot, or the
dot is at position 0, the unsigned-shift trick pushes the slice start past the end
and the result is the empty string. -/
def getFileExtension (s : JSStr) : JSStr :=
  let r := s.reverse
  let suf := r.takeWhile fun u => u != 46
  if suf.length + 1 ≤ s.length && 46 ∈ r then
    -- last dot is at index s.length - suf.length - 1; require that index ≥ 1
    if s.length - suf.length - 1 ≥ 1 then suf.reverse else []
  else []

/-- NumberToken: one maximal decimal digit run found in a stripped filename. -/
structure NumberToken where
  value : Nat
  originalString : JSStr
  index : Nat
  length : Nat
deriving Repr, DecidableEq

/-- Close the digit run `run` (scanned just before position `i`) into a
NumberToken, or nothing when no run is open. -/
def closeRun (run : JSStr) (i : Nat) : List NumberToken :=
  if run.isEmpty then []
  else [⟨digitsToVal run, run, i - run.length, run.length⟩]

/-- Scan worker: walk the remaining units at position `i`, carrying the
currently open digit run. -/
def scanTokensGo : JSStr → Nat → JSStr → List NumberToken
  | [], i, run => closeRun run i
  | u :: rest, i, run =>
    if digitUnit u then scanTokensGo rest (i + 1) (run ++ [u])
    else closeRun run i ++ scanTokensGo rest (i + 1) []

/-- The `while ((match = this.numberPattern.exec(fileName)) !== null)` loop of
NameProcessor.extractNumbers, after the `lastIndex = 0` reset: scan left to
right collecting every maximal run of decimal digits with its value, text,
start index and length. -/
def scanTokens (s : JSStr) : List NumberToken := scanTokensGo s 0 []

/-- ToInt32: reduce an exact integer to the 32-bit two's-complement range,
as applied by the `<<` and `&` operators in hashCode. -/
def toInt32 (x : Int) : Int :=
  let r := x % 4294967296
  if r < 2147483648 then r else r - 4294967296

/-- NameProcessor.hashCode: `hash = ((hash << 5) - hash) + charCodeAt(i);
hash = hash & hash` over every UTF-16 unit, then `Math.abs(hash)`. -/
def hashCode (s : JSStr) : Int :=
  let h := s.foldl (fun h c => toInt32 (toInt32 (h * 32) - h + (c : Int))) 0
  if h < 0 then -h else h

/-- The separator characters `['-', '_', ' ', '.', '(', ')', '[', ']']`. -/
def separators : List Nat := [45, 95, 32, 46, 40, 41, 91, 93]

/-- NameProcessor.calculateNumberScore.  The float comparisons
`index < fileNameLength * 0.2` and `index > fileNameLength * 0.8` are
rendered as the exact rational comparisons `5 * index < length` and
`5 * index > 4 * length`; the double rounding of `len * 0.2` / `len * 0.8`
never crosses an integer for any representable length, so the two agree. -/
def calculateNumberScore (numberObj : NumberToken) (fileName : JSStr) : Nat :=
  let fileNameLength := fileName.length
  let positionScore :=
    if numberObj.index = 0 || numberObj.index + numberObj.length = fileNameLength then 50
    else if 5 * numberObj.index < fileNameLength || 5 * numberObj.index > 4 * fileNameLength then 30
    else 0
  let lengthScore :=
    if 1 ≤ numberObj.length && numberObj.length ≤ 3 then 30 - (numberObj.length - 1) * 5
    else 0
  let valueScore :=
    if numberObj.value ≤ 999 then max 0 (20 - numberObj.value / 50) else 0
  let beforeSep :=
    numberObj.index > 0 && decide (fileName.getD (numberObj.index - 1) 0 ∈ separators)
  let afterSep :=
    numberObj.index + numberObj.length < fileNameLength &&
      decide (fileName.getD (numberObj.index + numberObj.length) 0 ∈ separators)
  positionScore + lengthScore + valueScore + (if beforeSep || afterSep then 15 else 0)

/-- NameProcessor.getPrimaryNumber: hash fallback when no number was found,
the single number's value when exactly one was found, otherwise the value of
the best-scoring token, the loop keeping the earlier token on score ties. -/
def getPrimaryNumber (numbers : List NumberToken) (fileName : JSStr) : Int :=
  match numbers with
  | [] => hashCode fileName
  | t :: rest =>
    ((rest.foldl
      (fun best n =>
        if calculateNumberScore n fileName > calculateNumberScore best fileName then n else best)
      t).value : Int)

/-- One element of the natural-numeric comparison key: a maximal digit run
collapsed to its value, or a single non-digit code unit. -/
inductive NatChunk where
  | num (value : Nat)
  | chr (unit : Nat)
deriving Repr, DecidableEq

/-- Chunking worker, carrying the currently open digit run. -/
def natChunksGo : JSStr → JSStr → List NatChunk
  | [], run => if run.isEmpty then [] else [.num (digitsToVal run)]
  | u :: rest, run =>
    if digitUnit u then natChunksGo rest (run ++ [u])
    else (if run.isEmpty then [] else [.num (digitsToVal run)]) ++
      .chr u :: natChunksGo rest []

/-- Split a string into its natural-numeric comparison key. -/
def natChunks (s : JSStr) : List NatChunk := natChunksGo s []

/-- Order between two chunks.  A digit run against a non-digit unit is decided
by that unit's position relative to the digit block 48–57, which is what
comparing the run's first unit against the non-digit unit yields regardless of
which digit it is. -/
def chunkCompare : NatChunk → NatChunk → Ordering
  | .num a, .num b => compare a b
  | .chr a, .chr b => compare a b
  | .num _, .chr u => if u < 48 then .gt else .lt
  | .chr u, .num _ => if u < 48 then .lt else .gt

/-- Lexicographic order on chunk lists. -/
def chunksCompare : List NatChunk → List NatChunk → Ordering
  | [], [] => .eq
  | [], _ :: _ => .lt
  | _ :: _, [] => .gt
  | a :: as, b :: bs =>
    match chunkCompare a b with
    | .eq => chunksCompare as bs
    | o => o

/-- Model of `a.localeCompare(b, "zh-CN", { numeric: true })` restricted to the
code-unit alphabet actually compared by the sort (ASCII letters, digits and
punctuation): maximal decimal digit runs compare by numeric value — so `"01"`
and `"1"` compare equal — and any other pair of code units compares by value.
This is the host collator's documented numeric behaviour; full ICU tailoring
for zh-CN is out of scope and irrelevant to the claims below. -/
def naturalCompare (a b : JSStr) : Ordering := chunksCompare (natChunks a) (natChunks b)

/-- The sign of `naturalCompare`, matching localeCompare's negative / zero /
positive integer result. -/
def naturalCompareInt (a b : JSStr) : Int :=
  match naturalCompare a b with
  | .lt => -1
  | .eq => 0
  | .gt => 1

/-- An input file as seen by the NameProcessor: its session id, original
name and size.  `originalIndex` is the file's position in the batch
(`files.indexOf(fileObj)` on identity-distinct objects). -/
structure FileObj where
  id : Nat
  name : JSStr
  size : Nat
deriving Repr, DecidableEq

/-- RankedFile: the record produced per file by NameProcessor.extractNumbers. -/
structure RankedFile where
  id : Nat
  name : JSStr
  size : Nat
  fileName : JSStr
  numbers : List NumberToken
  primaryNumber : Int
  originalIndex : Nat
deriving Repr, DecidableEq

/-- NameProcessor.extractNumbers: strip the extension, scan the digit runs,
select the primary number, and record the original batch index. -/
def extractNumbers (files : List FileObj) : List RankedFile :=
  files.enum.map fun p =>
    let fileName := removeFileExtension p.2.name
    let numbers := scanTokens fileName
    { id := p.2.id, name := p.2.name, size := p.2.size, fileName := fileName,
      numbers := numbers, primaryNumber := getPrimaryNumber numbers fileName,
      originalIndex := p.1 }

/-- The comparator of NameProcessor.sortFilesByNumbers, returning the sign
convention of a JS comparator: primary number difference first, then
locale-aware natural comparison of the stripped names when they differ,
then the original index difference. -/
def compareFiles (a b : RankedFile) : Int :=
  if a.primaryNumber ≠ b.primaryNumber then a.primaryNumber - b.primaryNumber
  else if a.fileName ≠ b.fileName then naturalCompareInt a.fileName b.fileName
  else (a.originalIndex : Int) - (b.originalIndex : Int)

/-- NameProcessor.sortFilesByNumbers: ECMAScript `Array.prototype.sort` with a
consistent comparator produces the unique stable, comparator-sorted
rearrangement; modelled by a stable structural sort on `compareFiles ≤ 0`. -/
def sortFilesByNumbers (filesWithNumbers : List RankedFile) : List RankedFile :=
  filesWithNumbers.insertionSort fun a b => compareFiles a b ≤ 0

/-- Fuel-driven worker for `numDigits`; the fuel is an upper bound on the
argument, so the base case is unreachable. -/
def numDigitsGo : Nat → Nat → Nat
  | 0, _ => 1
  | fuel + 1, n => if n < 10 then 1 else numDigitsGo fuel (n / 10) + 1

/-- Number of decimal digits of `n`, i.e. `n.toString().length` for a
non-negative integer. -/
def numDigits (n : Nat) : Nat := numDigitsGo n n

/-- The `w` low decimal digits of `n`, most significant first. -/
def decDigits : Nat → Nat → List Nat
  | 0, _ => []
  | w + 1, n => n / 10 ^ w % 10 :: decDigits w n

/-- `n.toString()` for a non-negative integer, as UTF-16 units. -/
def natToJs (n : Nat) : JSStr := (decDigits (numDigits n) n).map (· + 48)

/-- `s.padStart(w, "0")`. -/
def padStartZero (s : JSStr) (w : Nat) : JSStr := List.replicate (w - s.length) 48 ++ s

/-- The code units of `".zip"`. -/
def dotZip : JSStr := [46, 122, 105, 112]

/-- OutputMapping: the NameProcessor's per-file result. -/
structure OutputMapping where
  fileId : Nat
  originalName : JSStr
  outputName : JSStr
  sequenceNumber : Nat
  primaryNumber : Int
deriving Repr, DecidableEq

/-- NameProcessor.generateOutputNames: rank `r` (1-based) in the sorted order
gets `r.toString().padStart(max(3, N.toString().length), "0") + ".zip"`. -/
def generateOutputNames (sortedFiles : List RankedFile) : List OutputMapping :=
  let totalFiles := sortedFiles.length
  let digits := max 3 (numDigits totalFiles)
  sortedFiles.enum.map fun p =>
    let sequenceNumber := p.1 + 1
    let paddedNumber := padStartZero (natToJs sequenceNumber) digits
    { fileId := p.2.id, originalName := p.2.name,
      outputName := paddedNumber ++ dotZip,
      sequenceNumber := sequenceNumber, primaryNumber := p.2.primaryNumber }

/-- The mutable state of a NameProcessor instance.  The `numberPattern`
regex's `lastIndex` is not included: extractNumbers resets it to 0 before
every use, so it never influences a result. -/
structure NPState where
  sortedFiles : List RankedFile
deriving Repr, DecidableEq

/-- NameProcessor.processFileNames: extract, sort, name, and store the sorted
list in the instance state. -/
def processFileNames (st : NPState) (files : List FileObj) : NPState × List OutputMapping :=
  let filesWithNumbers := extractNumbers files
  let sorted := sortFilesByNumbers filesWithNumbers
  (⟨sorted⟩, generateOutputNames sorted)

/-! ### ZipGenerator: unique entry names and archives -/

/-- The candidate tried at loop iteration `k` of
ZipGenerator.generateUniqueFileName: the original name itself for `k = 0`,
then `nameWithoutExt + "_" + k + "." + extension` (both parts recomputed from
the original name each iteration). -/
def candidateName (originalName : JSStr) (k : Nat) : JSStr :=
  if k = 0 then originalName
  else removeFileExtension originalName ++ [95] ++ natToJs k ++ [46] ++
    getFileExtension originalName

/-- The `while (zip.file(fileName))` loop of generateUniqueFileName, with the
iteration count made explicit: test candidate `k`, move to `k + 1` while the
name is taken.  The fuel bound is a formal device only — the loop is shown to
find a free name within `existing.length + 2` iterations because candidates
are pairwise distinct, so the fuel-out arm is unreachable. -/
def uniqueNameLoop (existing : List JSStr) (originalName : JSStr) : Nat → Nat → JSStr
  | 0, k => candidateName originalName k
  | fuel + 1, k =>
    if candidateName originalName k ∈ existing then
      uniqueNameLoop existing originalName fuel (k + 1)
    else candidateName originalName k

/-- ZipGenerator.generateUniqueFileName: keep proposing `candidateName` while
the name is already taken (candidate 0 being the original name itself). -/
def generateUniqueFileName (existing : List JSStr) (originalName : JSStr) : JSStr :=
  uniqueNameLoop existing originalName (existing.length + 2) 0

/-- A ZIP archive under construction: its named entries in insertion order.
Compression parameters carry no observable content and are omitted. -/
structure ZipArchive where
  entries : List (JSStr × List Nat)
deriving Repr, DecidableEq

/-- JSZip `zip.file(name, data)`: replace the entry in place when the name is
already present, otherwise append it. -/
def zipAdd (z : ZipArchive) (name : JSStr) (data : List Nat) : ZipArchive :=
  if z.entries.any (fun e => decide (e.1 = name)) then
    ⟨z.entries.map fun e => if e.1 = name then (name, data) else e⟩
  else ⟨z.entries ++ [(name, data)]⟩

/-- Total byte size of an archive's entries, standing in for `blob.size`. -/
def zipSize (z : ZipArchive) : Nat := z.entries.foldl (fun s e => s + e.2.length) 0

/-- An image extracted from an EPUB.  The mime-type, width and height fields
are informational only and consumed by no verified claim, so they are left
out of the model. -/
structure ExtractedImage where
  originalPath : JSStr
  fileName : JSStr
  blob : List Nat
  size : Nat
deriving Repr, DecidableEq

/-- The entry-adding loop of ZipGenerator.generateZipFromImages: each image is
stored under a name made unique against the archive built so far. -/
def addImages (images : List ExtractedImage) : ZipArchive :=
  images.foldl
    (fun z img => zipAdd z (generateUniqueFileName (z.entries.map Prod.fst) img.fileName) img.blob)
    ⟨[]⟩

/-- ZipGenerator.generateZipFromImages.  The only throw site is the empty
check; the surrounding catch rethrows it with the `生成ZIP文件失败: ` prefix.
The fileName argument and the progress callback only feed progress reporting
and do not influence the archive. -/
def generateZipFromImages (images : List ExtractedImage) : Except String ZipArchive :=
  if images.isEmpty then .error "生成ZIP文件失败: 没有图片可以打包"
  else .ok (addImages images)

/-! ### EpubParser: image classification and extraction -/

/-- `String.prototype.toLowerCase` restricted to the ASCII range, all the
classifier patterns being ASCII. -/
def toLowerAscii (s : JSStr) : JSStr := s.map fun u => if 65 ≤ u && u ≤ 90 then u + 32 else u

/-- Does `needle` occur as a contiguous substring of `hay`? -/
def containsSub (needle hay : JSStr) : Bool :=
  (List.range (hay.length + 1)).any fun i => needle.isPrefixOf (hay.drop i)

/-- The lowercased image filename extensions recognised by the parser. -/
def imageExtensions : List JSStr :=
  [jstr ".jpg", jstr ".jpeg", jstr ".png", jstr ".gif", jstr ".webp", jstr ".bmp", jstr ".svg"]

/-- The directory words of the `/\/(images?|pics?|graphics?|assets?|media)\//i`
pattern, expanded from the optional-`s` groups. -/
def imageDirWords : List JSStr :=
  [jstr "images", jstr "image", jstr "pics", jstr "pic", jstr "graphics", jstr "graphic",
   jstr "assets", jstr "asset", jstr "media"]

/-- Does the path contain `/word/` for one of the image-directory words
(case-insensitively, both slashes required)? -/
def isInImageDirectory (path : JSStr) : Bool :=
  let lp := toLowerAscii path
  (List.range (lp.length + 1)).any fun i =>
    imageDirWords.any fun w => ([47] ++ w ++ [47]).isPrefixOf (lp.drop i)

/-- Does the lowercased path contain one of the thumbnail markers of
`/thumb|thumbnail|cover|icon/i`?  (`thumbnail` is subsumed by `thumb` but kept
for fidelity.) -/
def matchesThumbPattern (lowerPath : JSStr) : Bool :=
  containsSub (jstr "thumb") lowerPath || containsSub (jstr "thumbnail") lowerPath ||
    containsSub (jstr "cover") lowerPath || containsSub (jstr "icon") lowerPath

/-- EpubParser.isImageFile: image extension, and either inside a recognised
image directory or free of thumbnail/cover/icon markers. -/
def isImageFile (path : JSStr) : Bool :=
  let lowerPath := toLowerAscii path
  let hasImageExtension := imageExtensions.any fun ext => ext.isSuffixOf lowerPath
  let isNotThumbnail := !matchesThumbPattern lowerPath
  hasImageExtension && (isInImageDirectory path || isNotThumbnail)

/-- EpubParser.getFileExtension: `path.match(/\.([^.]+)$/)`, lowercased group,
empty when there is no match (note: unlike Utils.getFileExtension, a slash may
appear in the captured group and a leading dot does count). -/
def parserGetFileExtension (path : JSStr) : JSStr :=
  let r := path.reverse
  let suf := r.takeWhile fun u => u != 46
  if suf.length < path.length && !suf.isEmpty then toLowerAscii suf.reverse else []

/-- JS `path.split("/")`. -/
def splitOnSlash : JSStr → List JSStr
  | [] => [[]]
  | u :: rest =>
    match splitOnSlash rest with
    | [] => [[]]
    | part :: parts => if u = 47 then [] :: part :: parts else (u :: part) :: parts

/-- EpubParser.generateImageFileName: use the last path segment when it is a
usable filename, otherwise build `image_<sanitised path>.<ext or jpg>`. -/
def generateImageFileName (originalPath : JSStr) : JSStr :=
  let originalFileName := (splitOnSlash originalPath).getLastD []
  if !originalFileName.isEmpty && originalFileName ≠ [46] then originalFileName
  else
    let cleanPath := originalPath.map fun u =>
      if (97 ≤ u && u ≤ 122) || (65 ≤ u && u ≤ 90) || (48 ≤ u && u ≤ 57) ||
          u = 46 || u = 95 || u = 45 then u
      else 95
    let extension := parserGetFileExtension originalPath
    jstr "image_" ++ cleanPath ++ [46] ++ (if extension.isEmpty then jstr "jpg" else extension)

/-- One entry of the opened EPUB container, as enumerated by the Archive
Adapter (`zipContent.forEach`). -/
structure EpubEntry where
  path : JSStr
  dir : Bool
  data : List Nat
deriving Repr, DecidableEq

/-- EpubParser.extractImageData on an entry that read successfully. -/
def extractImageData (path : JSStr) (data : List Nat) : ExtractedImage :=
  { originalPath := path, fileName := generateImageFileName path,
    blob := data, size := data.length }

/-- EpubParser.extractImages: keep the non-directory entries classified as
images, sort them by path with the natural-numeric collator, and extract
each one. -/
def extractImages (entries : List EpubEntry) : List ExtractedImage :=
  let imageFiles := entries.filter fun e => !e.dir && isImageFile e.path
  let sorted := imageFiles.insertionSort fun a b => naturalCompareInt a.path b.path ≤ 0
  sorted.map fun e => extractImageData e.path e.data

/-- JSZip `zip.file(name)`: the non-directory entry of that exact path. -/
def zipFileLookup (entries : List EpubEntry) (p : JSStr) : Option EpubEntry :=
  entries.find? fun e => !e.dir && decide (e.path = p)

/-- EpubParser.parseEpub's result, over the fields the pipeline consumes
(metadata is informational only and omitted). -/
structure ParseResult where
  success : Bool
  error : Option String
  images : List ExtractedImage
  totalImages : Nat
  totalSize : Nat
deriving Repr, DecidableEq

/-- EpubParser.parseEpub on an already-opened container: structural check
(missing `META-INF/container.xml` is the one throwing validation; a wrong
`mimetype` only warns), then image extraction.  Container opening itself is
the external Archive Adapter, so its failure mode is outside this model. -/
def parseEpub (entries : List EpubEntry) : ParseResult :=
  if (zipFileLookup entries (jstr "META-INF/container.xml")).isNone then
    { success := false, error := some "缺少META-INF/container.xml文件",
      images := [], totalImages := 0, totalSize := 0 }
  else
    let images := extractImages entries
    { success := true, error := none, images := images, totalImages := images.length,
      totalSize := images.foldl (fun s i => s + i.size) 0 }

/-! ### Conversion pipeline (EpubToZipApp.processBatch and aggregation) -/

/-- The per-file record stored in `this.processedResults` (blob = the per-file
ZIP archive; kept optional because ZipGenerator.generateMultipleZips also
builds such records with `blob: null` on failure). -/
structure ConversionResult where
  fileId : Nat
  fileName : JSStr
  originalName : JSStr
  blob : Option ZipArchive
  size : Nat
  imageCount : Nat
  success : Bool
  error : Option String
deriving Repr, DecidableEq

/-- Terminal per-file status set through `fileHandler.updateFileStatus`. -/
inductive FileStatus where
  | completed
  | error (msg : String)
deriving Repr, DecidableEq

/-- One input file as the batch driver sees it: registry id, original name,
the output name assigned by the Name Sequencer, and the entry list its bytes
open to under the Archive Adapter. -/
structure PipelineFile where
  id : Nat
  name : JSStr
  outputName : JSStr
  entries : List EpubEntry
deriving Repr, DecidableEq

/-- The observable state accumulated by EpubToZipApp.processBatch:
`results` models the `processedResults.set` insertions (file ids are unique
in a session registry, so insertion order capture is faithful), `statuses`
the terminal status recorded per file, and the two counters mirror
`completedFiles` / `successfulFiles`. -/
structure BatchState where
  results : List (Nat × ConversionResult)
  statuses : List (Nat × FileStatus)
  completedFiles : Nat
  successfulFiles : Nat
deriving Repr, DecidableEq

/-- The try-block of one iteration of the `for (const fileObj of files)` loop
in processBatch: parse, reject parse failures and empty image sets, build the
ZIP, and assemble the success record; the first thrown message otherwise. -/
def processFileOutcome (fileObj : PipelineFile) : Except String ConversionResult :=
  let parseResult := parseEpub fileObj.entries
  if !parseResult.success then .error (parseResult.error.getD "解析失败")
  else if parseResult.images.length = 0 then .error "未找到图片文件"
  else
    match generateZipFromImages parseResult.images with
    | .error e => .error e
    | .ok zipBlob =>
      .ok { fileId := fileObj.id, fileName := fileObj.outputName,
            originalName := fileObj.name, blob := some zipBlob,
            size := zipSize zipBlob, imageCount := parseResult.images.length,
            success := true, error := none }

/-- One iteration of the batch loop: any failure is caught at the per-file
boundary and recorded as that file's error status, and only successes are
stored into `processedResults`. -/
def processBatchStep (st : BatchState) (fileObj : PipelineFile) : BatchState :=
  match processFileOutcome fileObj with
  | .ok result =>
    { results := st.results ++ [(fileObj.id, result)],
      statuses := st.statuses ++ [(fileObj.id, .completed)],
      completedFiles := st.completedFiles + 1,
      successfulFiles := st.successfulFiles + 1 }
  | .error msg =>
    { results := st.results,
      statuses := st.statuses ++ [(fileObj.id, .error msg)],
      completedFiles := st.completedFiles + 1,
      successfulFiles := st.successfulFiles }

/-- EpubToZipApp.processBatch: fold the per-file step over the whole batch;
no per-file outcome interrupts the loop. -/
def processBatch (files : List PipelineFile) : BatchState :=
  files.foldl processBatchStep ⟨[], [], 0, 0⟩

/-- The wrapper archive built for bulk download: per-file archives as named
top-level entries. -/
structure WrapperArchive where
  entries : List (JSStr × ZipArchive)
deriving Repr, DecidableEq

/-- JSZip `archive.file(name, blob)` on the wrapper archive. -/
def wrapAdd (a : WrapperArchive) (name : JSStr) (blob : ZipArchive) : WrapperArchive :=
  if a.entries.any (fun e => decide (e.1 = name)) then
    ⟨a.entries.map fun e => if e.1 = name then (name, blob) else e⟩
  else ⟨a.entries ++ [(name, blob)]⟩

/-- ZipGenerator.createArchive: wrap every successful result that carries a
blob; throw (with the catch's `创建总压缩包失败: ` prefix) when there is none. -/
def createArchive (zipResults : List ConversionResult) : Except String WrapperArchive :=
  let successfulResults := zipResults.filter fun r => r.success && r.blob.isSome
  if successfulResults.isEmpty then .error "创建总压缩包失败: 没有成功生成的ZIP文件可以打包"
  else .ok (successfulResults.foldl (fun a r => wrapAdd a r.fileName (r.blob.getD ⟨[]⟩)) ⟨[]⟩)

/-- What EpubToZipApp.downloadAllResults does: a warning notification with no
download, a direct single-file download, a wrapper-archive download, or a
reported aggregation error. -/
inductive DownloadOutcome where
  | noFiles (message : String)
  | single (blob : Option ZipArchive) (fileName : JSStr)
  | wrapped (archive : WrapperArchive) (fileName : JSStr)
  | failed (message : String)
deriving Repr, DecidableEq

/-- The default wrapper archive name `epub_converted_files.zip`. -/
def archiveDefaultName : JSStr := jstr "epub_converted_files.zip"

/-- EpubToZipApp.downloadAllResults over the current values of
`processedResults`. -/
def downloadAllResults (results : List ConversionResult) : DownloadOutcome :=
  let successfulResults := results.filter fun r => r.success
  match successfulResults with
  | [] => .noFiles "没有可下载的文件"
  | [result] => .single result.blob result.fileName
  | _ =>
    match createArchive successfulResults with
    | .ok archiveBlob => .wrapped archiveBlob archiveDefaultName
    | .error e => .failed e

/-! ### ZipGenerator concurrency bound (generateMultipleZips)

JavaScript executes this code on a single logical thread with
run-to-completion semantics: the `await` on each `generateZipFromImages`
resolves before the loop continues, and nothing else mutates `currentJobs`
while `waitForAvailableSlot` polls. -/

/-- ZipGenerator.waitForAvailableSlot under run-to-completion semantics:
returns immediately when a slot is free; when `currentJobs ≥
maxConcurrentJobs`, no other code can decrement the counter while the loop
polls, so the loop never terminates (`none`). -/
def waitForAvailableSlot (maxConcurrentJobs currentJobs : Nat) : Option Unit :=
  if currentJobs < maxConcurrentJobs then some () else none

/-- The in-flight counter values observed while
ZipGenerator.generateMultipleZips processes `n` tasks starting from counter
value `currentJobs`: for each task, wait for a slot, increment, run the job to
completion (the `finally` decrement restores the counter), and record the
in-flight count while the job runs.  `none` models divergence of the wait
loop. -/
def generateMultipleZipsTrace (maxConcurrentJobs : Nat) : Nat → Nat → Option (List Nat)
  | _, 0 => some []
  | currentJobs, n + 1 =>
    match waitForAvailableSlot maxConcurrentJobs currentJobs with
    | none => none
    | some _ =>
      (generateMultipleZipsTrace maxConcurrentJobs currentJobs n).map
        fun t => (currentJobs + 1) :: t

/-! ## Shared lemmas -/

theorem length_extractNumbers (files : List FileObj) :
    (extractNumbers files).length = files.length := by
  simp [extractNumbers]

theorem length_sortFilesByNumbers (l : List RankedFile) :
    (sortFilesByNumbers l).length = l.length := by
  simp [sortFilesByNumbers, List.length_insertionSort]

theorem length_generateOutputNames (l : List RankedFile) :
    (generateOutputNames l).length = l.length := by
  simp [generateOutputNames]

theorem length_processFileNames (st : NPState) (files : List FileObj) :
    ((processFileNames st files).2).length = files.length := by
  simp [processFileNames, length_generateOutputNames, length_sortFilesByNumbers,
    length_extractNumbers]

/-! ## C5 — idempotence / purity of the Name Sequencer -/

/-- C5: the Name Sequencer is a pure function of the batch: the produced
OutputMappings do not depend on the processor's mutable state (the stored
`sortedFiles` of a previous run; the regex `lastIndex` is reset before use and
never observable), so re-running `processFileNames` on an unchanged batch —
in particular from the state left behind by the first run — yields identical
OutputMappings. -/
theorem nameSequencer_idempotent (st₁ st₂ : NPState) (files : List FileObj) :
    (processFileNames st₁ files).2 = (processFileNames st₂ files).2 ∧
    (processFileNames ((processFileNames st₁ files).1) files).2 =
      (processFileNames st₁ files).2 := by
  exact ⟨rfl, rfl⟩

/-! ## C8 — totality of extraction, selection, hashing and sorting -/

/-- C8: no operation of the Name Sequencer can fail on any string input: the
whole chain is modelled by total functions (so every input, including empty,
unicode or number-free names, produces a result — one OutputMapping per input
file), and the hash fallback always returns a non-negative integer that is a
function of the string alone. -/
theorem nameSequencer_total_safe (s : JSStr) (st : NPState) (files : List FileObj) :
    0 ≤ hashCode s ∧ ((processFileNames st files).2).length = files.length := by
  refine ⟨?_, length_processFileNames st files⟩
  show 0 ≤ (if (s.foldl (fun h c => toInt32 (toInt32 (h * 32) - h + (c : Int))) 0) < 0 then
    -(s.foldl (fun h c => toInt32 (toInt32 (h * 32) - h + (c : Int))) 0)
    else (s.foldl (fun h c => toInt32 (toInt32 (h * 32) - h + (c : Int))) 0))
  split <;> omega

/-! ## C9 — concurrency bound of generateMultipleZips -/

/-- C9: under the single-threaded run-to-completion semantics of the source,
the batch ZIP generator's wait-for-slot loop admits a job only when fewer
than `maxConcurrentJobs` jobs are in flight, so starting from an idle
generator the in-flight count observed while any of the `n` jobs runs never
exceeds the bound (the loop is in fact fully sequential, so the count is
always 1), and the trace never diverges. -/
theorem concurrency_bound_trace (maxConcurrentJobs : Nat) (hpos : 0 < maxConcurrentJobs)
    (n : Nat) :
    ∃ t, generateMultipleZipsTrace maxConcurrentJobs 0 n = some t ∧
      ∀ c ∈ t, c ≤ maxConcurrentJobs := by
  induction n with
  | zero => exact ⟨[], rfl, by simp⟩
  | succ n ih =>
    obtain ⟨t, ht, hb⟩ := ih
    refine ⟨1 :: t, ?_, ?_⟩
    · simp [generateMultipleZipsTrace, waitForAvailableSlot, hpos, ht]
    · intro c hc
      rcases List.mem_cons.mp hc with h | h
      · omega
      · exact hb c h

/-- Witness for C9 at the source's default bound `maxConcurrentJobs = 3` and a
five-task batch. -/
theorem concurrency_bound_trace_witness :
    ∃ t, generateMultipleZipsTrace 3 0 5 = some t ∧ ∀ c ∈ t, c ≤ 3 :=
  concurrency_bound_trace 3 (by decide) 5

/-! ## C3 — primary number selection -/

/-- The strictly-greater replacement fold of getPrimaryNumber returns the
leftmost element (seed included) attaining the maximum of `f`. -/
theorem foldl_argmax_spec {α : Type} (f : α → Nat) (l : List α) :
    ∀ a : α, ∃ pre post,
      a :: l = pre ++ (l.foldl (fun b n => if f n > f b then n else b) a) :: post ∧
      (∀ x ∈ a :: l, f x ≤ f (l.foldl (fun b n => if f n > f b then n else b) a)) ∧
      (∀ y ∈ pre, f y < f (l.foldl (fun b n => if f n > f b then n else b) a)) := by
  induction l with
  | nil =>
    intro a
    exact ⟨[], [], rfl, by simp, by simp⟩
  | cons n l ih =>
    intro a
    by_cases h : f n > f a
    · have hstep : (n :: l).foldl (fun b m => if f m > f b then m else b) a
          = l.foldl (fun b m => if f m > f b then m else b) n := by
        simp [List.foldl_cons, if_pos h]
      obtain ⟨pre, post, heq, hmax, hlt⟩ := ih n
      rw [hstep]
      refine ⟨a :: pre, post, by rw [List.cons_append, ← heq], ?_, ?_⟩
      · intro x hx
        rcases List.mem_cons.mp hx with rfl | hx2
        · exact le_of_lt (lt_of_lt_of_le h (hmax n (List.mem_cons_self n l)))
        · exact hmax x hx2
      · intro y hy
        rcases List.mem_cons.mp hy with rfl | hy2
        · exact lt_of_lt_of_le h (hmax n (List.mem_cons_self n l))
        · exact hlt y hy2
    · have hstep : (n :: l).foldl (fun b m => if f m > f b then m else b) a
          = l.foldl (fun b m => if f m > f b then m else b) a := by
        simp [List.foldl_cons, if_neg h]
      obtain ⟨pre, post, heq, hmax, hlt⟩ := ih a
      rw [hstep]
      match pre, heq with
      | [], heq =>
        have hba : l.foldl (fun b m => if f m > f b then m else b) a = a :=
          (List.cons.injEq _ _ _ _ ▸ heq).1.symm
        refine ⟨[], n :: l, by rw [List.nil_append, hba], ?_, by simp⟩
        intro x hx
        rcases List.mem_cons.mp hx with rfl | hx2
        · exact hmax x (List.mem_cons_self x l)
        · rcases List.mem_cons.mp hx2 with rfl | hx3
          · rw [hba]; omega
          · exact hmax x (List.mem_cons_of_mem a hx3)
      | p :: pre2, heq =>
        have hpa : p = a := ((List.cons.injEq _ _ _ _).mp heq.symm).1
        have hl : l = pre2 ++ l.foldl (fun b m => if f m > f b then m else b) a :: post :=
          ((List.cons.injEq _ _ _ _).mp heq.symm).2.symm
        have hfa : f a < f (l.foldl (fun b m => if f m > f b then m else b) a) :=
          hpa ▸ hlt p (List.mem_cons_self p pre2)
        refine ⟨a :: n :: pre2, post, by (conv_lhs => rw [hl]); simp, ?_, ?_⟩
        · intro x hx
          rcases List.mem_cons.mp hx with rfl | hx2
          · exact le_of_lt hfa
          · rcases List.mem_cons.mp hx2 with rfl | hx3
            · omega
            · exact hmax x (List.mem_cons_of_mem a hx3)
        · intro y hy
          rcases List.mem_cons.mp hy with rfl | hy2
          · exact hfa
          · rcases List.mem_cons.mp hy2 with rfl | hy3
            · omega
            · exact hlt y (hpa ▸ List.mem_cons_of_mem p hy3)

/-- C3: the primary ordering number of a stripped filename is the
deterministic hash when it contains no digit run, the single token's value
when it contains exactly one, and with several tokens the value of the token
maximizing `calculateNumberScore` — the leftmost one among equal top scores
(covered by the general `t :: rest` case, whose decomposition puts only
strictly lower-scoring tokens before the selected one). -/
theorem primaryNumber_selection (fileName : JSStr) :
    (scanTokens fileName = [] →
      getPrimaryNumber (scanTokens fileName) fileName = hashCode fileName) ∧
    (∀ t, scanTokens fileName = [t] →
      getPrimaryNumber (scanTokens fileName) fileName = (t.value : Int)) ∧
    (∀ t rest, scanTokens fileName = t :: rest →
      ∃ pre best post,
        t :: rest = pre ++ best :: post ∧
        getPrimaryNumber (scanTokens fileName) fileName = (best.value : Int) ∧
        (∀ u ∈ t :: rest, calculateNumberScore u fileName ≤ calculateNumberScore best fileName) ∧
        (∀ u ∈ pre, calculateNumberScore u fileName < calculateNumberScore best fileName)) := by
  refine ⟨?_, ?_, ?_⟩
  · intro h; rw [h]; rfl
  · intro t h; rw [h]; rfl
  · intro t rest h
    rw [h]
    obtain ⟨pre, post, heq, hmax, hlt⟩ :=
      foldl_argmax_spec (fun u => calculateNumberScore u fileName) rest t
    exact ⟨pre, _, post, heq, rfl, hmax, hlt⟩

/-- Witness for C3 on `"vol2ch10"`: two tokens (`2` at index 3, `10` at index
6); the trailing `10` scores higher and is selected. -/
theorem primaryNumber_selection_witness :
    ∃ pre best post,
      (⟨2, [50], 3, 1⟩ : NumberToken) :: [⟨10, [49, 48], 6, 2⟩] = pre ++ best :: post ∧
      getPrimaryNumber (scanTokens (jstr "vol2ch10")) (jstr "vol2ch10") = (best.value : Int) ∧
      (∀ u ∈ (⟨2, [50], 3, 1⟩ : NumberToken) :: [⟨10, [49, 48], 6, 2⟩],
        calculateNumberScore u (jstr "vol2ch10") ≤ calculateNumberScore best (jstr "vol2ch10")) ∧
      (∀ u ∈ pre,
        calculateNumberScore u (jstr "vol2ch10") < calculateNumberScore best (jstr "vol2ch10")) :=
  (primaryNumber_selection (jstr "vol2ch10")).2.2 ⟨2, [50], 3, 1⟩ [⟨10, [49, 48], 6, 2⟩] (by decide)

/-! ## C4 — the comparator and strict totality -/

/-- A concrete two-file batch whose stripped names `a01` and `a1` are distinct
but natural-numerically equivalent. -/
def numericTieBatch : List FileObj :=
  [⟨0, jstr "a01.epub", 7⟩, ⟨1, jstr "a1.epub", 7⟩]

/-- Placeholder RankedFile for the out-of-range default of `List.getD`. -/
def dummyRanked : RankedFile := ⟨0, [], 0, [], [], 0, 0⟩

/-- C4 counterexample: the two distinct inputs `a01.epub` and `a1.epub` (same
primary number 1, distinct stripped names that the numeric collator equates)
compare equal — the comparator returns 0 without ever consulting the
original-index tie-break, so the order is not a strict total order. -/
theorem ordering_strict_total_counterexample :
    ((extractNumbers numericTieBatch).getD 0 dummyRanked).originalIndex ≠
      ((extractNumbers numericTieBatch).getD 1 dummyRanked).originalIndex ∧
    (extractNumbers numericTieBatch).getD 0 dummyRanked ≠
      (extractNumbers numericTieBatch).getD 1 dummyRanked ∧
    compareFiles ((extractNumbers numericTieBatch).getD 0 dummyRanked)
      ((extractNumbers numericTieBatch).getD 1 dummyRanked) = 0 := by
  decide

/-- C4 amended: the comparator orders by primary number, then natural-numeric
name comparison when the stripped names differ, then original index, and it
equates two inputs at distinct original indices exactly when their primary
numbers agree and their stripped names are distinct but natural-numerically
equivalent; on batches without such name pairs the order is strict. -/
theorem ordering_comparator_zero_iff (a b : RankedFile)
    (h : a.originalIndex ≠ b.originalIndex) :
    compareFiles a b = 0 ↔
      a.primaryNumber = b.primaryNumber ∧ a.fileName ≠ b.fileName ∧
        naturalCompare a.fileName b.fileName = .eq := by
  unfold compareFiles
  by_cases hp : a.primaryNumber = b.primaryNumber
  · simp only [hp, ne_eq, not_true_eq_false, if_false]
    by_cases hn : a.fileName = b.fileName
    · simp only [hn, not_true_eq_false, if_false]
      constructor
      · intro hz
        exfalso
        have : a.originalIndex = b.originalIndex := by omega
        exact h this
      · rintro ⟨-, hne, -⟩
        exact hne.elim
    · simp only [hn, not_false_eq_true, if_true]
      unfold naturalCompareInt
      cases hc : naturalCompare a.fileName b.fileName <;> simp [hc, hn]
  · simp only [hp, ne_eq, not_false_eq_true, if_true]
    constructor
    · intro hz
      exfalso
      exact hp (by omega)
    · rintro ⟨heq, -, -⟩
      exact heq.elim

/-- Witness for the amended C4: two ranked files with equal primary number and
the numerically-equivalent stripped names `x2` / `x02` compare equal. -/
theorem ordering_comparator_zero_iff_witness :
    compareFiles ⟨0, jstr "x2.epub", 1, jstr "x2", [⟨2, [50], 1, 1⟩], 2, 0⟩
      ⟨1, jstr "x02.epub", 1, jstr "x02", [⟨2, [48, 50], 1, 2⟩], 2, 1⟩ = 0 :=
  (ordering_comparator_zero_iff _ _ (by decide)).mpr ⟨by decide, by decide, by decide⟩

/-! ## C10 — thumbnail / cover exclusion -/

/-- C10: an entry whose lowercased path contains one of the thumbnail markers
(`thumb`, `thumbnail`, `cover`, `icon`) and does not sit inside a recognised
image directory is rejected by the classifier and therefore never appears
among the extracted images, whatever the rest of the container holds. -/
theorem thumbnail_exclusion (entries : List EpubEntry) (path : JSStr)
    (hthumb : matchesThumbPattern (toLowerAscii path) = true)
    (hdir : isInImageDirectory path = false) :
    isImageFile path = false ∧
    ∀ img ∈ extractImages entries, img.originalPath ≠ path := by
  have himg : isImageFile path = false := by
    unfold isImageFile
    simp [hdir, hthumb]
  refine ⟨himg, ?_⟩
  intro img hmem
  unfold extractImages at hmem
  simp only [List.mem_map] at hmem
  obtain ⟨e, he, rfl⟩ := hmem
  rw [List.mem_insertionSort] at he
  have hpred := List.of_mem_filter he
  intro hpath
  have : isImageFile e.path = true := by
    simp only [Bool.and_eq_true] at hpred
    exact hpred.2
  rw [show (extractImageData e.path e.data).originalPath = e.path from rfl] at hpath
  rw [hpath, himg] at this
  exact Bool.false_ne_true this

/-- Witness for C10: a top-level `cover.jpg` is never extracted from a
container that holds it. -/
theorem thumbnail_exclusion_witness :
    isImageFile (jstr "cover.jpg") = false ∧
    ∀ img ∈ extractImages
        [⟨jstr "META-INF/container.xml", false, [0]⟩, ⟨jstr "cover.jpg", false, [1, 2]⟩],
      img.originalPath ≠ jstr "cover.jpg" :=
  thumbnail_exclusion _ _ (by decide) (by decide)

/-! ## C2 — per-file failure isolation in processBatch -/

/-- Every iteration of the batch loop either appends one `success:true`
ConversionResult together with a `completed` status, or appends one error
status and touches the result registry not at all; in both cases exactly one
file is accounted for and the accumulated state is otherwise untouched. -/
theorem processBatchStep_cases (st : BatchState) (f : PipelineFile) :
    (∃ result : ConversionResult, result.success = true ∧
      processBatchStep st f =
        { results := st.results ++ [(f.id, result)],
          statuses := st.statuses ++ [(f.id, .completed)],
          completedFiles := st.completedFiles + 1,
          successfulFiles := st.successfulFiles + 1 }) ∨
    (∃ msg, processBatchStep st f =
        { results := st.results,
          statuses := st.statuses ++ [(f.id, .error msg)],
          completedFiles := st.completedFiles + 1,
          successfulFiles := st.successfulFiles }) := by
  cases hE : processFileOutcome f with
  | ok result =>
    left
    refine ⟨result, ?_, by unfold processBatchStep; rw [hE]⟩
    unfold processFileOutcome at hE
    dsimp only at hE
    split at hE
    · exact absurd hE (by simp)
    · split at hE
      · exact absurd hE (by simp)
      · split at hE
        · exact absurd hE (by simp)
        · cases hE
          rfl
  | error msg =>
    right
    exact ⟨msg, by unfold processBatchStep; rw [hE]⟩

/-- Accumulated invariants of the batch fold from an arbitrary starting
state: ids are appended in batch order, every file is counted, the result
registry only grows by successes, and success count is bounded by the batch
size. -/
theorem processBatch_foldl (files : List PipelineFile) :
    ∀ st : BatchState,
      ((files.foldl processBatchStep st).statuses.map Prod.fst
        = st.statuses.map Prod.fst ++ files.map PipelineFile.id) ∧
      ((files.foldl processBatchStep st).completedFiles = st.completedFiles + files.length) ∧
      ((files.foldl processBatchStep st).results.length + st.successfulFiles
        = st.results.length + (files.foldl processBatchStep st).successfulFiles) ∧
      (∀ r ∈ (files.foldl processBatchStep st).results, r ∈ st.results ∨ r.2.success = true) ∧
      ((files.foldl processBatchStep st).successfulFiles
        ≤ st.successfulFiles + files.length) := by
  induction files with
  | nil =>
    intro st
    refine ⟨by simp, by simp, by simp, ?_, by simp⟩
    intro r hr
    exact Or.inl hr
  | cons f fs ih =>
    intro st
    have hfold : (f :: fs).foldl processBatchStep st
        = fs.foldl processBatchStep (processBatchStep st f) := List.foldl_cons _ _
    obtain ⟨h1, h2, h3, h4, h5⟩ := ih (processBatchStep st f)
    rcases processBatchStep_cases st f with ⟨result, hsucc, hstep⟩ | ⟨msg, hstep⟩
    · rw [hstep] at h1 h2 h3 h4 h5
      rw [hfold, hstep]
      simp only [List.length_cons, List.length_append, List.length_nil,
        List.map_append, List.map_cons, List.map_nil] at h1 h2 h3 h4 h5 ⊢
      refine ⟨?_, by omega, by omega, ?_, by omega⟩
      · rw [h1]; simp
      · intro r hr
        rcases h4 r hr with hmem | hs
        · rcases List.mem_append.mp hmem with hmem2 | hmem2
          · exact Or.inl hmem2
          · right
            have he : r = (f.id, result) := List.mem_singleton.mp hmem2
            rw [he]
            exact hsucc
        · exact Or.inr hs
    · rw [hstep] at h1 h2 h3 h4 h5
      rw [hfold, hstep]
      simp only [List.length_cons, List.length_append, List.length_nil,
        List.map_append, List.map_cons, List.map_nil] at h1 h2 h3 h4 h5 ⊢
      refine ⟨?_, by omega, by omega, h4, by omega⟩
      rw [h1]; simp

/-- The concrete container pair used by the C2 scenario: a well-formed EPUB
holding one extractable image, and one holding none. -/
def okEntries : List EpubEntry :=
  [⟨jstr "META-INF/container.xml", false, [0]⟩, ⟨jstr "img/001.jpg", false, [9, 9]⟩]

/-- A structurally valid container with no images at all. -/
def noImagesEntries : List EpubEntry := [⟨jstr "META-INF/container.xml", false, [0]⟩]

/-- The three-file batch of the C2 scenario: file 2 contains zero images. -/
def partialFailureBatch : List PipelineFile :=
  [⟨0, jstr "a1.epub", jstr "001.zip", okEntries⟩,
   ⟨1, jstr "a2.epub", jstr "002.zip", noImagesEntries⟩,
   ⟨2, jstr "a3.epub", jstr "003.zip", okEntries⟩]

/-- C2 counterexample: in the three-file batch with one zero-image file, all
three files are attempted and reach a terminal status — but only 2
ConversionResults exist, both `success:true`; no `success:false`
ConversionResult is ever created, the failure being recorded solely as the
file's error status (naming the no-images condition), so the batch does not
yield 3 ConversionResults as claimed. -/
theorem pipeline_partial_failure_counterexample :
    (processBatch partialFailureBatch).statuses =
      [(0, .completed), (1, .error "未找到图片文件"), (2, .completed)] ∧
    (processBatch partialFailureBatch).results.length = 2 ∧
    (∀ r ∈ (processBatch partialFailureBatch).results, r.2.success = true) ∧
    (processBatch partialFailureBatch).successfulFiles = 2 := by
  decide

/-- C2 amended: one file's failure does not abort its siblings — the pipeline
attempts all N files, records exactly one terminal status per file in batch
order (completed, or an error naming the failure), and counts every file;
however ConversionResults are created for the successes only (all
`success:true`), failures leaving just the error status, so K successes yield
exactly K ConversionResults. -/
theorem pipeline_partial_failure_amended (files : List PipelineFile) :
    ((processBatch files).statuses.map Prod.fst = files.map PipelineFile.id) ∧
    ((processBatch files).statuses.length = files.length) ∧
    ((processBatch files).completedFiles = files.length) ∧
    (∀ r ∈ (processBatch files).results, r.2.success = true) ∧
    ((processBatch files).results.length = (processBatch files).successfulFiles) ∧
    ((processBatch files).successfulFiles ≤ files.length) := by
  obtain ⟨h1, h2, h3, h4, h5⟩ := processBatch_foldl files ⟨[], [], 0, 0⟩
  have hmapfst : (processBatch files).statuses.map Prod.fst = files.map PipelineFile.id := by
    simpa [processBatch] using h1
  refine ⟨hmapfst, ?_, by simpa [processBatch] using h2, ?_, ?_, by simpa [processBatch] using h5⟩
  · have := congrArg List.length hmapfst
    simpa using this
  · intro r hr
    rcases h4 r hr with hmem | hs
    · exact absurd hmem (List.not_mem_nil r)
    · exact hs
  · simpa [processBatch] using h3

/-- Witness for the amended C2 on the concrete three-file batch. -/
theorem pipeline_partial_failure_amended_witness :
    ((processBatch partialFailureBatch).statuses.map Prod.fst
      = partialFailureBatch.map PipelineFile.id) ∧
    ((processBatch partialFailureBatch).statuses.length = partialFailureBatch.length) ∧
    ((processBatch partialFailureBatch).completedFiles = partialFailureBatch.length) ∧
    (∀ r ∈ (processBatch partialFailureBatch).results, r.2.success = true) ∧
    ((processBatch partialFailureBatch).results.length
      = (processBatch partialFailureBatch).successfulFiles) ∧
    ((processBatch partialFailureBatch).successfulFiles ≤ partialFailureBatch.length) :=
  pipeline_partial_failure_amended partialFailureBatch

/-! ## C6 — aggregation of successful results -/

/-- Two wrapper archives with the same entries are equal. -/
theorem WrapperArchive.eq_of_entries (X Y : WrapperArchive) (h : X.entries = Y.entries) : X = Y := by
  cases X
  cases Y
  cases h
  rfl

/-- Folding `archive.file(...)` over results whose names are fresh for the
accumulator and pairwise distinct appends exactly one entry per result. -/
theorem wrapAdd_foldl (l : List ConversionResult) :
    ∀ acc : WrapperArchive,
      (∀ r ∈ l, ∀ e ∈ acc.entries, e.1 ≠ r.fileName) →
      ((l.map ConversionResult.fileName).Nodup) →
      (l.foldl (fun a r => wrapAdd a r.fileName (r.blob.getD ⟨[]⟩)) acc).entries
        = acc.entries ++ l.map fun r => (r.fileName, r.blob.getD ⟨[]⟩) := by
  induction l with
  | nil =>
    intro acc _ _
    simp
  | cons r l ih =>
    intro acc hdisj hnodup
    rw [List.map_cons] at hnodup
    have hnodup2 := List.nodup_cons.mp hnodup
    have hnew : wrapAdd acc r.fileName (r.blob.getD ⟨[]⟩)
        = ⟨acc.entries ++ [(r.fileName, r.blob.getD ⟨[]⟩)]⟩ := by
      unfold wrapAdd
      rw [if_neg]
      intro hany
      obtain ⟨e, he, hname⟩ := List.any_eq_true.mp hany
      exact hdisj r (List.mem_cons_self r l) e he (of_decide_eq_true hname)
    rw [List.foldl_cons, hnew, ih]
    · simp
    · intro r2 hr2 e he
      rcases List.mem_append.mp he with h1 | h1
      · exact hdisj r2 (List.mem_cons_of_mem r hr2) e h1
      · have he2 : e = (r.fileName, r.blob.getD ⟨[]⟩) := List.mem_singleton.mp h1
        rw [he2]
        show r.fileName ≠ r2.fileName
        intro hcontra
        exact hnodup2.1 (hcontra ▸ List.mem_map_of_mem ConversionResult.fileName hr2)
    · exact hnodup2.2

/-- C6: aggregation over the K successful ConversionResults behaves by cases:
K = 0 reports the no-files condition and downloads nothing; K = 1 delivers
the single per-file archive directly with no wrapper; K ≥ 2 builds exactly
one wrapper archive, named `epub_converted_files.zip`, whose entries are each
result's output name mapped to its archive bytes.  (Successful results carry
a blob and distinct output names, per C1 and the pipeline.) -/
theorem aggregation_cases (results : List ConversionResult)
    (hblob : ∀ r ∈ results, r.success = true → r.blob.isSome = true)
    (hnames : ((results.filter fun r => r.success).map ConversionResult.fileName).Nodup) :
    ((results.filter fun r => r.success) = [] →
      downloadAllResults results = .noFiles "没有可下载的文件") ∧
    (∀ r, (results.filter fun r => r.success) = [r] →
      downloadAllResults results = .single r.blob r.fileName) ∧
    (2 ≤ (results.filter fun r => r.success).length →
      downloadAllResults results =
        .wrapped ⟨(results.filter fun r => r.success).map fun r => (r.fileName, r.blob.getD ⟨[]⟩)⟩
          archiveDefaultName) := by
  refine ⟨?_, ?_, ?_⟩
  · intro h
    unfold downloadAllResults
    rw [h]
  · intro r h
    unfold downloadAllResults
    rw [h]
  · intro hlen
    have hall : ∀ r ∈ results.filter (fun r => r.success), (r.success && r.blob.isSome) = true := by
      intro r hr
      have hmem := List.mem_of_mem_filter hr
      have hs := List.of_mem_filter hr
      simp only [Bool.and_eq_true]
      exact ⟨hs, hblob r hmem hs⟩
    have hfilter : (results.filter fun r => r.success).filter
        (fun r => r.success && r.blob.isSome) = results.filter fun r => r.success :=
      List.filter_eq_self.mpr hall
    have hca : createArchive (results.filter fun r => r.success) =
        .ok ⟨(results.filter fun r => r.success).map fun r => (r.fileName, r.blob.getD ⟨[]⟩)⟩ := by
      unfold createArchive
      rw [hfilter, if_neg]
      · apply congrArg Except.ok
        apply WrapperArchive.eq_of_entries
        rw [wrapAdd_foldl _ ⟨[]⟩ (by intro r _ e he; exact absurd he (List.not_mem_nil e)) hnames]
        simp
      · intro hemp
        rw [List.isEmpty_iff] at hemp
        rw [hemp] at hlen
        simp at hlen
    rcases hfs : results.filter (fun r => r.success) with _ | ⟨a, _ | ⟨b, rest⟩⟩
    · rw [hfs] at hlen; simp at hlen
    · rw [hfs] at hlen; simp at hlen
    · rw [hfs] at hca
      unfold downloadAllResults
      rw [hfs]
      dsimp only
      rw [hca]

/-- Two concrete successful results for the C6 witness. -/
def zipA : ZipArchive := ⟨[(jstr "p1.jpg", [1])]⟩

/-- Second single-entry archive for the C6 witness. -/
def zipB : ZipArchive := ⟨[(jstr "p2.jpg", [2])]⟩

/-- First successful result for the C6 witness. -/
def resA : ConversionResult := ⟨0, jstr "001.zip", jstr "a.epub", some zipA, 1, 1, true, none⟩

/-- Second successful result for the C6 witness. -/
def resB : ConversionResult := ⟨1, jstr "002.zip", jstr "b.epub", some zipB, 1, 1, true, none⟩

/-- Witness for C6 in the K = 2 case: two successful results produce one
wrapper archive with the two per-file archives as its named entries. -/
theorem aggregation_cases_witness :
    downloadAllResults [resA, resB] =
      .wrapped ⟨[(jstr "001.zip", zipA), (jstr "002.zip", zipB)]⟩ archiveDefaultName :=
  (aggregation_cases [resA, resB] (by decide) (by decide)).2.2 (by decide)

/-! ## Decimal rendering and code-unit lexicographic order -/

/-- JS string `<`: code-unit lexicographic comparison. -/
def jsLt : JSStr → JSStr → Bool
  | [], [] => false
  | [], _ :: _ => true
  | _ :: _, [] => false
  | a :: as, b :: bs => if a < b then true else if b < a then false else jsLt as bs

theorem jsLt_cons (a b : Nat) (as bs : JSStr) :
    jsLt (a :: as) (b :: bs) = if a < b then true else if b < a then false else jsLt as bs := rfl

theorem jsLt_irrefl : ∀ s : JSStr, jsLt s s = false
  | [] => rfl
  | _ :: as => by rw [jsLt_cons, if_neg (lt_irrefl _), if_neg (lt_irrefl _)]; exact jsLt_irrefl as

theorem numDigitsGo_irrel : ∀ f₁ f₂ n, n ≤ f₁ → n ≤ f₂ → numDigitsGo f₁ n = numDigitsGo f₂ n := by
  intro f₁
  induction f₁ with
  | zero =>
    intro f₂ n h1 _
    interval_cases n
    cases f₂ <;> simp [numDigitsGo]
  | succ f ih =>
    intro f₂ n h1 h2
    cases f₂ with
    | zero =>
      interval_cases n
      simp [numDigitsGo]
    | succ f₂ =>
      show numDigitsGo (f + 1) n = numDigitsGo (f₂ + 1) n
      unfold numDigitsGo
      by_cases hn : n < 10
      · rw [if_pos hn, if_pos hn]
      · rw [if_neg hn, if_neg hn]
        have hd : n / 10 < n := Nat.div_lt_self (by omega) (by omega)
        rw [ih f₂ (n / 10) (by omega) (by omega)]

theorem numDigits_lt10 (n : Nat) (h : n < 10) : numDigits n = 1 := by
  unfold numDigits
  cases n with
  | zero => rfl
  | succ m => unfold numDigitsGo; rw [if_pos h]

theorem numDigits_of_ge10 (n : Nat) (h : 10 ≤ n) : numDigits n = numDigits (n / 10) + 1 := by
  obtain ⟨m, rfl⟩ : ∃ m, n = m + 1 := ⟨n - 1, by omega⟩
  have hd : (m + 1) / 10 < m + 1 := Nat.div_lt_self (by omega) (by omega)
  have h1 : numDigits (m + 1) = numDigitsGo m ((m + 1) / 10) + 1 := by
    show numDigitsGo (m + 1) (m + 1) = numDigitsGo m ((m + 1) / 10) + 1
    simp only [numDigitsGo]
    rw [if_neg (by omega)]
  rw [h1, numDigitsGo_irrel m ((m + 1) / 10) ((m + 1) / 10) (by omega) (by omega)]
  rfl

theorem one_le_numDigits (n : Nat) : 1 ≤ numDigits n := by
  by_cases h : n < 10
  · rw [numDigits_lt10 n h]
  · rw [numDigits_of_ge10 n (by omega)]; omega

theorem lt_pow_numDigits (n : Nat) : n < 10 ^ numDigits n := by
  induction n using Nat.strong_induction_on with
  | _ n ih =>
    by_cases h : n < 10
    · rw [numDigits_lt10 n h]
      simpa using h
    · rw [numDigits_of_ge10 n (by omega)]
      have hd : n / 10 < n := Nat.div_lt_self (by omega) (by omega)
      have hih := ih (n / 10) hd
      have hmod := Nat.div_add_mod n 10
      have hlt : n % 10 < 10 := Nat.mod_lt _ (by omega)
      calc n = 10 * (n / 10) + n % 10 := (Nat.div_add_mod n 10).symm
        _ < 10 * (n / 10) + 10 := by omega
        _ = 10 * (n / 10 + 1) := by ring
        _ ≤ 10 * 10 ^ numDigits (n / 10) := by
            have : n / 10 + 1 ≤ 10 ^ numDigits (n / 10) := hih
            exact Nat.mul_le_mul_left 10 this
        _ = 10 ^ (numDigits (n / 10) + 1) := by ring

theorem numDigits_mono : ∀ {m n : Nat}, m ≤ n → numDigits m ≤ numDigits n := by
  intro m n
  induction n using Nat.strong_induction_on generalizing m with
  | _ n ih =>
    intro hmn
    by_cases hn : n < 10
    · rw [numDigits_lt10 m (by omega), numDigits_lt10 n hn]
    · by_cases hm : m < 10
      · rw [numDigits_lt10 m hm]
        exact one_le_numDigits n
      · rw [numDigits_of_ge10 m (by omega), numDigits_of_ge10 n (by omega)]
        have hd : n / 10 < n := Nat.div_lt_self (by omega) (by omega)
        have := ih (n / 10) hd (Nat.div_le_div_right hmn)
        omega

theorem length_decDigits : ∀ w n, (decDigits w n).length = w := by
  intro w
  induction w with
  | zero => intro n; rfl
  | succ w ih => intro n; simp [decDigits, ih]

theorem decDigits_mod : ∀ w n, decDigits w (n % 10 ^ w) = decDigits w n := by
  intro w
  induction w with
  | zero => intro n; rfl
  | succ w ih =>
    intro n
    unfold decDigits
    have hhead : n % 10 ^ (w + 1) / 10 ^ w % 10 = n / 10 ^ w % 10 := by
      rw [pow_succ, Nat.mod_mul_right_div_self]
      exact Nat.mod_mod_of_dvd _ dvd_rfl
    have htail : decDigits w (n % 10 ^ (w + 1)) = decDigits w n := by
      rw [← ih (n % 10 ^ (w + 1)), Nat.mod_mod_of_dvd n (pow_dvd_pow 10 (by omega)), ih n]
    rw [hhead, htail]

theorem decDigits_succ (w n : Nat) : decDigits (w + 1) n = n / 10 ^ w % 10 :: decDigits w n := rfl

theorem decDigits_zero_extend : ∀ k w n, n < 10 ^ w →
    decDigits (w + k) n = List.replicate k 0 ++ decDigits w n := by
  intro k
  induction k with
  | zero => intro w n _; rfl
  | succ k ih =>
    intro w n h
    have hz : n / 10 ^ (w + k) = 0 :=
      Nat.div_eq_of_lt (lt_of_lt_of_le h (Nat.pow_le_pow_right (by omega) (by omega)))
    show decDigits ((w + k) + 1) n = List.replicate (k + 1) 0 ++ decDigits w n
    rw [decDigits_succ, hz, ih w n h]
    rfl

theorem decDigits_val : ∀ w n a,
    (decDigits w n).foldl (fun acc d => acc * 10 + d) a = a * 10 ^ w + n % 10 ^ w := by
  intro w
  induction w with
  | zero => intro n a; simp [decDigits, Nat.mod_one]
  | succ w ih =>
    intro n a
    show ((n / 10 ^ w % 10 :: decDigits w n).foldl (fun acc d => acc * 10 + d) a) = _
    rw [List.foldl_cons, ih]
    have h1 : n % 10 ^ (w + 1) / 10 ^ w = n / 10 ^ w % 10 := by
      rw [pow_succ, Nat.mod_mul_right_div_self]
    have h2 : n % 10 ^ (w + 1) % 10 ^ w = n % 10 ^ w :=
      Nat.mod_mod_of_dvd n (pow_dvd_pow 10 (by omega))
    have h3 := Nat.div_add_mod (n % 10 ^ (w + 1)) (10 ^ w)
    rw [h1, h2] at h3
    have hpow : (10 : Nat) ^ (w + 1) = 10 ^ w * 10 := pow_succ 10 w
    nlinarith [h3]

theorem natToJs_length (n : Nat) : (natToJs n).length = numDigits n := by
  simp [natToJs, length_decDigits]

theorem natToJs_inj : ∀ m n : Nat, natToJs m = natToJs n → m = n := by
  intro m n h
  have hlen : numDigits m = numDigits n := by
    have := congrArg List.length h
    simpa [natToJs_length] using this
  have hdig : decDigits (numDigits m) m = decDigits (numDigits m) n := by
    unfold natToJs at h
    rw [hlen] at h ⊢
    exact List.map_injective_iff.mpr (fun a b => by omega) h
  have hval := congrArg (List.foldl (fun acc d => acc * 10 + d) 0) hdig
  rw [decDigits_val, decDigits_val] at hval
  have hm := lt_pow_numDigits m
  have hn := lt_pow_numDigits n
  rw [Nat.mod_eq_of_lt hm, Nat.mod_eq_of_lt (by rw [hlen]; exact hn)] at hval
  simpa using hval

theorem padStartZero_natToJs (r w : Nat) (h : numDigits r ≤ w) :
    padStartZero (natToJs r) w = (decDigits w r).map (· + 48) := by
  have hw : w = numDigits r + (w - numDigits r) := by omega
  conv_rhs => rw [hw, decDigits_zero_extend (w - numDigits r) (numDigits r) r (lt_pow_numDigits r)]
  show List.replicate (w - (natToJs r).length) 48 ++ natToJs r = _
  rw [natToJs_length, List.map_append, List.map_replicate]
  show _ = List.replicate (w - numDigits r) (0 + 48) ++ natToJs r
  norm_num

theorem jsLt_decDigits : ∀ w a b t₁ t₂, a < b → b < 10 ^ w →
    jsLt ((decDigits w a).map (· + 48) ++ t₁) ((decDigits w b).map (· + 48) ++ t₂) = true := by
  intro w
  induction w with
  | zero =>
    intro a b _ _ hab hb
    omega
  | succ w ih =>
    intro a b t₁ t₂ hab hb
    have hpow : (10 : Nat) ^ (w + 1) = 10 * 10 ^ w := by ring
    have hda : a / 10 ^ w < 10 := by
      rw [Nat.div_lt_iff_lt_mul (Nat.pos_pow_of_pos w (by omega))]
      omega
    have hdb : b / 10 ^ w < 10 := by
      rw [Nat.div_lt_iff_lt_mul (Nat.pos_pow_of_pos w (by omega))]
      omega
    have hle : a / 10 ^ w ≤ b / 10 ^ w := Nat.div_le_div_right (le_of_lt hab)
    show jsLt ((a / 10 ^ w % 10 + 48) :: ((decDigits w a).map (· + 48) ++ t₁))
        ((b / 10 ^ w % 10 + 48) :: ((decDigits w b).map (· + 48) ++ t₂)) = true
    rw [Nat.mod_eq_of_lt hda, Nat.mod_eq_of_lt hdb, jsLt_cons]
    rcases Nat.lt_or_ge (a / 10 ^ w) (b / 10 ^ w) with hq | hq
    · rw [if_pos (by omega)]
    · have hqeq : a / 10 ^ w = b / 10 ^ w := by omega
      rw [if_neg (by omega), if_neg (by omega)]
      have hma := Nat.div_add_mod a (10 ^ w)
      have hmb := Nat.div_add_mod b (10 ^ w)
      have hmodlt : a % 10 ^ w < b % 10 ^ w := by
        rw [hqeq] at hma
        omega
      have hblt : b % 10 ^ w < 10 ^ w := Nat.mod_lt _ (Nat.pos_pow_of_pos w (by omega))
      rw [← decDigits_mod w a, ← decDigits_mod w b]
      exact ih (a % 10 ^ w) (b % 10 ^ w) t₁ t₂ hmodlt hblt

/-- Strict lexicographic growth of the padded output names: for ranks
`r < s ≤ N`, the padded `r`-name precedes the padded `s`-name. -/
theorem outputName_lt (r s N : Nat) (hrs : r < s) (h2 : s ≤ N) :
    jsLt (padStartZero (natToJs r) (max 3 (numDigits N)) ++ dotZip)
      (padStartZero (natToJs s) (max 3 (numDigits N)) ++ dotZip) = true := by
  have hdr : numDigits r ≤ max 3 (numDigits N) :=
    le_trans (numDigits_mono (by omega)) (le_max_right _ _)
  have hds : numDigits s ≤ max 3 (numDigits N) :=
    le_trans (numDigits_mono h2) (le_max_right _ _)
  have hsN : s < 10 ^ max 3 (numDigits N) :=
    lt_of_le_of_lt h2 (lt_of_lt_of_le (lt_pow_numDigits N)
      (Nat.pow_le_pow_right (by omega) (le_max_right _ _)))
  rw [padStartZero_natToJs r _ hdr, padStartZero_natToJs s _ hds]
  exact jsLt_decDigits _ r s dotZip dotZip hrs hsN

/-! ## C1 — output naming of the Name Sequencer -/

theorem enumFrom_map_succ_fst {α : Type} : ∀ (l : List α) (n : Nat),
    (List.enumFrom n l).map (fun p => p.1 + 1) = List.range' (n + 1) l.length := by
  intro l
  induction l with
  | nil => intro n; rfl
  | cons a l ih =>
    intro n
    rw [List.enumFrom_cons, List.map_cons, ih (n + 1), List.length_cons, List.range'_succ]

theorem generateOutputNames_map_seq (l : List RankedFile) :
    (generateOutputNames l).map OutputMapping.sequenceNumber = List.range' 1 l.length := by
  unfold generateOutputNames
  dsimp only
  rw [List.map_map]
  have h := enumFrom_map_succ_fst l 0
  simpa [List.enum, Function.comp] using h

theorem generateOutputNames_fields (l : List RankedFile) (i : Nat) (hi : i < l.length)
    (hi2 : i < (generateOutputNames l).length) :
    (generateOutputNames l)[i].sequenceNumber = i + 1 ∧
    (generateOutputNames l)[i].outputName
      = padStartZero (natToJs (i + 1)) (max 3 (numDigits l.length)) ++ dotZip := by
  unfold generateOutputNames
  dsimp only
  refine ⟨?_, ?_⟩ <;> simp [List.getElem_map, List.getElem_enum]

/-- C1: on any non-empty batch of N files the Name Sequencer emits exactly N
OutputMappings, whose sequence numbers are exactly 1..N in order (no gaps or
repeats), whose output names are the rank zero-padded to
`max(3, digits(N))` followed by `".zip"`, and whose output names are
strictly increasing in code-unit lexicographic order along the sequence —
hence pairwise distinct and lexicographically sorted like the numeric
ranks. -/
theorem nameSequencer_outputNames (st : NPState) (files : List FileObj) (hne : files ≠ []) :
    ((processFileNames st files).2).length = files.length ∧
    ((processFileNames st files).2).map OutputMapping.sequenceNumber
      = List.range' 1 files.length ∧
    (∀ mp ∈ (processFileNames st files).2,
      1 ≤ mp.sequenceNumber ∧ mp.sequenceNumber ≤ files.length ∧
      mp.outputName = padStartZero (natToJs mp.sequenceNumber)
        (max 3 (numDigits files.length)) ++ dotZip) ∧
    ((processFileNames st files).2).Pairwise
      (fun x y => jsLt x.outputName y.outputName = true) ∧
    (((processFileNames st files).2).map OutputMapping.outputName).Nodup := by
  have hpf : (processFileNames st files).2
      = generateOutputNames (sortFilesByNumbers (extractNumbers files)) := rfl
  have hlen0 : (sortFilesByNumbers (extractNumbers files)).length = files.length := by
    rw [length_sortFilesByNumbers, length_extractNumbers]
  have hlen : ((processFileNames st files).2).length = files.length :=
    length_processFileNames st files
  have hpair0 : (generateOutputNames (sortFilesByNumbers (extractNumbers files))).Pairwise
      (fun x y => jsLt x.outputName y.outputName = true) := by
    rw [List.pairwise_iff_getElem]
    intro i j hi hj hij
    have hi0 : i < (sortFilesByNumbers (extractNumbers files)).length := by
      rw [← length_generateOutputNames]; exact hi
    have hj0 : j < (sortFilesByNumbers (extractNumbers files)).length := by
      rw [← length_generateOutputNames]; exact hj
    obtain ⟨-, hnamei⟩ := generateOutputNames_fields _ i hi0 hi
    obtain ⟨-, hnamej⟩ := generateOutputNames_fields _ j hj0 hj
    rw [hnamei, hnamej, hlen0]
    exact outputName_lt (i + 1) (j + 1) files.length (by omega)
      (by rw [← hlen0]; omega)
  have hpair : ((processFileNames st files).2).Pairwise
      (fun x y => jsLt x.outputName y.outputName = true) := hpair0
  refine ⟨hlen, ?_, ?_, hpair, ?_⟩
  · rw [hpf, generateOutputNames_map_seq, hlen0]
  · intro mp hmp
    rw [hpf] at hmp
    rw [List.mem_iff_getElem] at hmp
    obtain ⟨i, hi, heq⟩ := hmp
    have hi0 : i < (sortFilesByNumbers (extractNumbers files)).length := by
      rw [← length_generateOutputNames]; exact hi
    obtain ⟨hseq, hname⟩ := generateOutputNames_fields _ i hi0 hi
    rw [← heq, hseq, hname, hlen0]
    have : i < files.length := by rw [← hlen0]; exact hi0
    exact ⟨by omega, by omega, rfl⟩
  · rw [List.Nodup, List.pairwise_map]
    apply hpair.imp
    intro a b hab hcontra
    rw [hcontra, jsLt_irrefl] at hab
    exact Bool.false_ne_true hab

/-- Witness for C1 on a concrete two-file batch. -/
theorem nameSequencer_outputNames_witness :
    ((processFileNames ⟨[]⟩ [⟨0, jstr "b.epub", 1⟩, ⟨1, jstr "a.epub", 1⟩]).2).length = 2 ∧
    ((processFileNames ⟨[]⟩ [⟨0, jstr "b.epub", 1⟩, ⟨1, jstr "a.epub", 1⟩]).2).map
      OutputMapping.sequenceNumber = List.range' 1 2 ∧
    (∀ mp ∈ (processFileNames ⟨[]⟩ [⟨0, jstr "b.epub", 1⟩, ⟨1, jstr "a.epub", 1⟩]).2,
      1 ≤ mp.sequenceNumber ∧ mp.sequenceNumber ≤ 2 ∧
      mp.outputName = padStartZero (natToJs mp.sequenceNumber) (max 3 (numDigits 2)) ++ dotZip) ∧
    ((processFileNames ⟨[]⟩ [⟨0, jstr "b.epub", 1⟩, ⟨1, jstr "a.epub", 1⟩]).2).Pairwise
      (fun x y => jsLt x.outputName y.outputName = true) ∧
    (((processFileNames ⟨[]⟩ [⟨0, jstr "b.epub", 1⟩, ⟨1, jstr "a.epub", 1⟩]).2).map
      OutputMapping.outputName).Nodup :=
  nameSequencer_outputNames ⟨[]⟩ [⟨0, jstr "b.epub", 1⟩, ⟨1, jstr "a.epub", 1⟩] (by decide)

/-! ## C7 — collision-suffixed unique entry names -/

theorem candidateName_inj (orig : JSStr) {k j : Nat} (hk : 1 ≤ k) (hj : 1 ≤ j)
    (h : candidateName orig k = candidateName orig j) : k = j := by
  unfold candidateName at h
  rw [if_neg (by omega), if_neg (by omega)] at h
  have h2 := List.append_cancel_right h
  have h3 := List.append_cancel_right h2
  exact natToJs_inj k j (List.append_cancel_left h3)

theorem exists_fresh_candidate (existing : List JSStr) (orig : JSStr) :
    ∃ j, 1 ≤ j ∧ j ≤ existing.length + 1 ∧ candidateName orig j ∉ existing := by
  by_contra hcon
  push_neg at hcon
  have hsub : ∀ x ∈ (List.range (existing.length + 1)).map
      (fun i => candidateName orig (i + 1)), x ∈ existing := by
    intro x hx
    obtain ⟨i, hi, rfl⟩ := List.mem_map.mp hx
    have hi2 := List.mem_range.mp hi
    exact hcon (i + 1) (by omega) (by omega)
  have hnodup : ((List.range (existing.length + 1)).map
      (fun i => candidateName orig (i + 1))).Nodup := by
    refine List.Nodup.map_on ?_ (List.nodup_range _)
    intro x _ y _ hxy
    have := candidateName_inj orig (k := x + 1) (j := y + 1) (by omega) (by omega) hxy
    omega
  have h1 := List.toFinset_card_of_nodup hnodup
  have h3 : ((List.range (existing.length + 1)).map
      (fun i => candidateName orig (i + 1))).toFinset.card ≤ existing.toFinset.card := by
    apply Finset.card_le_card
    intro x hx
    rw [List.mem_toFinset] at hx ⊢
    exact hsub x hx
  have h4 := List.toFinset_card_le existing
  rw [h1] at h3
  simp only [List.length_map, List.length_range] at h3
  omega

theorem uniqueNameLoop_spec (existing : List JSStr) (orig : JSStr) :
    ∀ fuel k, (∃ j, j < fuel ∧ candidateName orig (k + j) ∉ existing) →
      ∃ j, j < fuel ∧
        uniqueNameLoop existing orig fuel k = candidateName orig (k + j) ∧
        candidateName orig (k + j) ∉ existing ∧
        ∀ i, i < j → candidateName orig (k + i) ∈ existing := by
  intro fuel
  induction fuel with
  | zero =>
    intro k h
    obtain ⟨j, hj, -⟩ := h
    omega
  | succ fuel ih =>
    intro k h
    by_cases hmem : candidateName orig k ∈ existing
    · have hloop : uniqueNameLoop existing orig (fuel + 1) k
          = uniqueNameLoop existing orig fuel (k + 1) := by
        show (if candidateName orig k ∈ existing then uniqueNameLoop existing orig fuel (k + 1)
          else candidateName orig k) = uniqueNameLoop existing orig fuel (k + 1)
        rw [if_pos hmem]
      obtain ⟨j, hj, hfree⟩ := h
      have hj0 : j ≠ 0 := by
        intro h0
        rw [h0] at hfree
        exact hfree hmem
      obtain ⟨j2, rfl⟩ : ∃ j2, j = j2 + 1 := ⟨j - 1, by omega⟩
      have hprev : ∃ j3, j3 < fuel ∧ candidateName orig ((k + 1) + j3) ∉ existing := by
        refine ⟨j2, by omega, ?_⟩
        have harg : (k + 1) + j2 = k + (j2 + 1) := by omega
        rw [harg]
        exact hfree
      obtain ⟨j3, hj3, hres, hfree3, hmin3⟩ := ih (k + 1) hprev
      refine ⟨j3 + 1, by omega, ?_, ?_, ?_⟩
      · rw [hloop, hres]
        congr 1
        omega
      · have harg : k + (j3 + 1) = (k + 1) + j3 := by omega
        rw [harg]
        exact hfree3
      · intro i hi
        cases i with
        | zero => exact hmem
        | succ i2 =>
          have harg : k + (i2 + 1) = (k + 1) + i2 := by omega
          rw [harg]
          exact hmin3 i2 (by omega)
    · refine ⟨0, by omega, ?_, hmem, ?_⟩
      · show (if candidateName orig k ∈ existing then uniqueNameLoop existing orig fuel (k + 1)
          else candidateName orig k) = candidateName orig (k + 0)
        rw [if_neg hmem]
        rfl
      · intro i hi
        omega

/-- C7: the Archive Builder resolves entry-name collisions by appending
`_<counter>` before the extension, with the counter starting at 1 and
incrementing until the name is unique: the returned name never collides with
the existing entries, a fresh proposal is kept unchanged, and a colliding
proposal becomes the candidate with the least counter `k ≥ 1` that is free,
every smaller counter's candidate being taken. -/
theorem uniqueFileName_spec (existing : List JSStr) (originalName : JSStr) :
    generateUniqueFileName existing originalName ∉ existing ∧
    (originalName ∉ existing → generateUniqueFileName existing originalName = originalName) ∧
    (originalName ∈ existing →
      ∃ k, 1 ≤ k ∧
        generateUniqueFileName existing originalName = candidateName originalName k ∧
        candidateName originalName k ∉ existing ∧
        ∀ j, 1 ≤ j → j < k → candidateName originalName j ∈ existing) := by
  obtain ⟨j0, hj01, hj0n, hj0free⟩ := exists_fresh_candidate existing originalName
  have hex : ∃ j, j < existing.length + 2 ∧ candidateName originalName (0 + j) ∉ existing :=
    ⟨j0, by omega, by simpa using hj0free⟩
  obtain ⟨j, hj, hres, hfree, hmin⟩ :=
    uniqueNameLoop_spec existing originalName (existing.length + 2) 0 hex
  simp only [Nat.zero_add] at hres hfree hmin
  have hgen : generateUniqueFileName existing originalName = candidateName originalName j := hres
  refine ⟨by rw [hgen]; exact hfree, ?_, ?_⟩
  · intro hnot
    by_cases hj0 : j = 0
    · rw [hgen, hj0]; rfl
    · exfalso
      have hc0 := hmin 0 (by omega)
      exact hnot hc0
  · intro hin
    have hjpos : 1 ≤ j := by
      by_contra hc
      have hj0 : j = 0 := by omega
      rw [hj0] at hfree
      exact hfree hin
    exact ⟨j, hjpos, hgen, hfree, fun i _ h2 => hmin i h2⟩

/-- Witness for C7: two identically-named images collide and the second
becomes `image_1.jpg`. -/
theorem uniqueFileName_spec_witness :
    generateUniqueFileName [jstr "image.jpg"] (jstr "image.jpg") = jstr "image_1.jpg" ∧
    ∃ k, 1 ≤ k ∧
      generateUniqueFileName [jstr "image.jpg"] (jstr "image.jpg")
        = candidateName (jstr "image.jpg") k ∧
      candidateName (jstr "image.jpg") k ∉ [jstr "image.jpg"] ∧
      ∀ j, 1 ≤ j → j < k → candidateName (jstr "image.jpg") j ∈ [jstr "image.jpg"] :=
  ⟨by decide, (uniqueFileName_spec [jstr "image.jpg"] (jstr "image.jpg")).2.2 (by decide)⟩

end EpubZip
